import Mathlib

/-!
# cybikosite: the game catalogue (`cydata`) and its HTTP front

A shallow embedding of `cydata/main.go` and of the listing handler of `main.go`.

Conventions of the embedding

* A Go `string` is a sequence of bytes: `Str = List Nat`, one number per byte.
  String literals of the source are written `utf8 "..."`.
* A Go `int` is modelled by `Int`.  The only arithmetic of the program is
  `len/32 + 1` and `i/32 + 1` on non-negative lengths and indices, which cannot
  leave the 64-bit range, and on which Go's truncating division and `Int`'s `/` agree.
* A Go slice is `Slice α = Option (List α)`: `none` is the `nil` slice and
  `some xs` a non-nil slice (possibly of length 0).
* A Go `error` is `Option Str`, `none` being `nil`.
* `for ... range` loops that only accumulate are left folds; loops that may
  return early are structural recursions over the ranged list.
-/

namespace cydata

/-! ## Strings -/

/-- Go string: a sequence of bytes. -/
abbrev Str := List Nat

/-- UTF-8 encoding of one Unicode scalar value. -/
def utf8EncodeChar (c : Nat) : List Nat :=
  if c ≤ 0x7f then [c]
  else if c ≤ 0x7ff then [0xC0 + c / 64, 0x80 + c % 64]
  else if c ≤ 0xffff then [0xE0 + c / 4096, 0x80 + (c / 64) % 64, 0x80 + c % 64]
  else [0xF0 + c / 262144, 0x80 + (c / 4096) % 64, 0x80 + (c / 64) % 64, 0x80 + c % 64]

/-- The bytes of a text given as a list of characters. -/
def utf8Chars (cs : List Char) : Str := cs.flatMap (fun c => utf8EncodeChar c.toNat)

/-- The bytes of a source-code string literal. -/
def utf8 (s : String) : Str := utf8Chars s.toList

/-- Go error value; `none` is `nil`. -/
abbrev Err := Option Str

/-! ## Slices -/

/-- Go slice: `none` is `nil`, `some xs` is a non-nil slice holding `xs`. -/
abbrev Slice (α : Type) := Option (List α)

/-- Go `append(s, x)`; appending to `nil` allocates. -/
def Slice.append {α : Type} (s : Slice α) (x : α) : Slice α := some (s.getD [] ++ [x])

/-- Go `len(s)`; `len(nil) = 0`. -/
def Slice.len {α : Type} (s : Slice α) : Int := ((s.getD []).length : Int)

/-! ## Data model (`cydata/main.go` lines 14-42) -/

/-- Constant `PageSize`. -/
def PageSize : Int := 32

/-- Struct `CyFile`. -/
structure CyFile where
  RefID : Int
  Name : Str
  FilePath : Str
  ExtractionMethod : Str
  OriginalType : Str
deriving DecidableEq

/-- Struct `Game`; the map `CyFiles` is an association list with unique keys. -/
structure Game where
  Name : Str
  FolderName : Str
  CyFiles : List (Str × CyFile)
  IntroImg : Str
  IconImg : Str
  Text : Str
  TextShortened : Str
  PageNumber : Int
  TweetString : Str
deriving DecidableEq

/-- Struct `CyData`.  `Load` makes `Games` a non-nil slice before anything reads it,
so the field is kept as the list of its elements. -/
structure CyData where
  Games : List Game
deriving DecidableEq

/-- Method `Length`: `len(cy.Games)`. -/
def CyData.Length (cy : CyData) : Int := (cy.Games.length : Int)

/-! ## Queries -/

/-- Method `GetGames` (lines 44-54): the outer loop ranges over the requested
names, the inner loop over the catalogue. -/
def CyData.GetGames (cy : CyData) (gameNames : List Str) : Slice Game × Err :=
  let games : Slice Game := some []
  let games := gameNames.foldl (fun games gameName =>
    cy.Games.foldl (fun games game =>
      if game.FolderName = gameName then games.append game else games) games) games
  (games, none)

/-- Method `GetGamesOnPage` (lines 204-223). -/
def CyData.GetGamesOnPage (cy : CyData) (pageNumber : Int) : Slice Game :=
  let games : Slice Game := some []
  let pageNumber := if pageNumber < 1 then 1 else pageNumber
  let pageNumber :=
    if pageNumber > cy.Length / PageSize + 1 then cy.Length / PageSize + 1 else pageNumber
  let games := cy.Games.foldl (fun games game =>
    if game.PageNumber = pageNumber then games.append game else games) games
  if games.len = 0 then none else games

/-- Method `GetAllGames`: the catalogue slice itself (non-nil after `Load`). -/
def CyData.GetAllGames (cy : CyData) : Slice Game := some cy.Games

/-! ## Go library functions used by the program

Models of the standard-library functions the source calls, each following the
library's documented behaviour on the arguments the program passes. -/

/-- Byte value of an ASCII character literal. -/
def byte (c : Char) : Nat := c.toNat

/-- Worker of `ReplaceAll`: scans left to right; `skip` counts the bytes of the
occurrence just replaced that are still to be stepped over. -/
def replaceFrom (old new : Str) : Nat → Str → Str
  | _, [] => []
  | skip + 1, _ :: cs => replaceFrom old new skip cs
  | 0, c :: cs =>
    if old.isPrefixOf (c :: cs) then new ++ replaceFrom old new (old.length - 1) cs
    else c :: replaceFrom old new 0 cs

/-- Go `strings.Replace(s, old, new, -1)` for a non-empty `old` (every call of the
program passes a non-empty literal): all non-overlapping occurrences of `old`,
found left to right, are replaced by `new`. -/
def ReplaceAll (s old new : Str) : Str := replaceFrom old new 0 s

/-- Replacement table of Go `html.EscapeString`. -/
def escapeByte (c : Nat) : Str :=
  if c = byte '&' then utf8 "&amp;"
  else if c = byte '\'' then utf8 "&#39;"
  else if c = byte '<' then utf8 "&lt;"
  else if c = byte '>' then utf8 "&gt;"
  else if c = byte '"' then utf8 "&#34;"
  else [c]

/-- Go `html.EscapeString`: a byte-wise replacer for the five special characters. -/
def EscapeString (s : Str) : Str := s.flatMap escapeByte

/-- Go `strings.HasSuffix`. -/
def HasSuffix (s suffix : Str) : Bool := suffix.isSuffixOf s

/-- Go `strings.isSeparator` on ASCII: alphanumerics and the underscore are not
separators, every other ASCII character is.  Bytes above `0x7F` belong to
multi-byte runes, whose classification needs the Unicode tables; they are
treated as letters. -/
def isSeparator (r : Nat) : Bool :=
  if r ≤ 0x7F then
    if byte '0' ≤ r ∧ r ≤ byte '9' then false
    else if byte 'a' ≤ r ∧ r ≤ byte 'z' then false
    else if byte 'A' ≤ r ∧ r ≤ byte 'Z' then false
    else if r = byte '_' then false
    else true
  else false

/-- Go `unicode.ToTitle` on ASCII: lower-case letters are mapped to upper case. -/
def ToTitle (r : Nat) : Nat :=
  if byte 'a' ≤ r ∧ r ≤ byte 'z' then r - 32 else r

/-- Worker of `Title`: the closure state `prev` is threaded through the map. -/
def titleFrom : Nat → Str → Str
  | _, [] => []
  | prev, r :: rs => (if isSeparator prev then ToTitle r else r) :: titleFrom r rs

/-- Go `strings.Title`, restricted to ASCII text, on which it is exact: every
letter that follows a separator, or starts the string, is mapped to title case.
On other input Go decodes runes, maps them with the Unicode tables and replaces
invalid UTF-8 by U+FFFD; that part is outside this model, which is used only
on ASCII folder names. -/
def Title (s : Str) : Str := titleFrom (byte ' ') s

/-- Go `url.shouldEscape` in mode `encodeQueryComponent`. -/
def shouldEscape (c : Nat) : Bool :=
  if (byte 'a' ≤ c ∧ c ≤ byte 'z') ∨ (byte 'A' ≤ c ∧ c ≤ byte 'Z')
      ∨ (byte '0' ≤ c ∧ c ≤ byte '9') then false
  else if c = byte '-' ∨ c = byte '_' ∨ c = byte '.' ∨ c = byte '~' then false
  else true

/-- Digit `n` of the table `"0123456789ABCDEF"`. -/
def upperhex (n : Nat) : Nat := if n < 10 then byte '0' + n else byte 'A' + (n - 10)

/-- Go `url.QueryEscape`: a space becomes `+`, every other byte that must be
escaped becomes `%XX`. -/
def QueryEscape (s : Str) : Str :=
  s.flatMap (fun c =>
    if c = byte ' ' then [byte '+']
    else if shouldEscape c then [byte '%', upperhex (c / 16), upperhex (c % 16)]
    else [c])

/-- Go `strconv.Atoi`: optional sign, then one or more decimal digits, the value
within the 64-bit range; `none` is the error result. -/
def Atoi (s : Str) : Option Int :=
  let neg := s.head? = some (byte '-')
  let ds := if s.head? = some (byte '-') ∨ s.head? = some (byte '+') then s.tail else s
  if ds = [] then none
  else if ds.all (fun d => decide (byte '0' ≤ d ∧ d ≤ byte '9')) then
    let v : Int := (ds.foldl (fun acc d => acc * 10 + (d - byte '0')) 0 : Nat)
    let r : Int := if neg then -v else v
    if -(2 : Int) ^ 63 ≤ r ∧ r < (2 : Int) ^ 63 then some r else none
  else none

/-! ## Text helpers (`cydata/main.go` lines 187-202) -/

/-- Function `addFormatting`. -/
def addFormatting (text : Str) : Str :=
  let text := ReplaceAll text (utf8 "&lt;") (utf8 "<kbd>&lt;")
  let text := ReplaceAll text (utf8 "&gt;") (utf8 "&gt;</kbd>")
  text

/-- Function `makeTitle`. -/
def makeTitle (folderName : Str) : Str :=
  ReplaceAll (Title folderName) (utf8 "_") (utf8 " ")

/-- Function `shortenText`: `len` and the slice expression count bytes. -/
def shortenText (text : Str) : Str :=
  if text.length > 280 then text.take 280 ++ utf8 "..." else text

/-! ## The loader (`cydata/main.go` lines 56-185) -/

/-- Directory entry as returned by `ioutil.ReadDir`. -/
structure FileInfo where
  Name : Str
  IsDir : Bool
deriving DecidableEq

/-- The file system the loader reads: `ioutil.ReadDir` and `ioutil.ReadFile`. -/
structure FileSystem where
  ReadDir : Str → Except Str (List FileInfo)
  ReadFile : Str → Except Str Str

/-- Function `handleTextFile`. -/
def handleTextFile (fs : FileSystem) (path : Str) : Str × Err :=
  match fs.ReadFile path with
  | .error err => ([], some err)
  | .ok text =>
    let fixedText := text
    if fixedText = [] then (utf8 "No text found", none)
    else
      let fixedText := EscapeString fixedText
      let fixedText := ReplaceAll fixedText (utf8 "\n") (utf8 "<br>")
      let fixedText := addFormatting fixedText
      (fixedText, none)

/-- Go `sort.StringSlice.Less`: byte-wise lexicographic order. -/
def strLess : Str → Str → Bool
  | [], [] => false
  | [], _ :: _ => true
  | _ :: _, [] => false
  | a :: as, b :: bs => if a < b then true else if b < a then false else strLess as bs

/-- Go `sort.StringSlice.Sort`: the ascending arrangement of the strings. -/
def sortStrings (l : List Str) : List Str :=
  l.insertionSort (fun a b => strLess b a = false)

/-- Function `foldersWhichExist`. -/
def foldersWhichExist (fs : FileSystem) : Except Str (List Str) :=
  match fs.ReadDir (utf8 "/static/resources/") with
  | .error err => .error err
  | .ok files =>
    let foldersWhichExist : List Str := files.foldl (fun acc file =>
      if !file.IsDir then acc else acc ++ [file.Name]) []
    .ok (sortStrings foldersWhichExist)

/-- Assignment `m[key] = value` on a map kept as an association list. -/
def mapSet (m : List (Str × CyFile)) (key : Str) (value : CyFile) : List (Str × CyFile) :=
  if m.any (fun kv => kv.1 = key) then m.map (fun kv => if kv.1 = key then (key, value) else kv)
  else m ++ [(key, value)]

/-- Suffix classification of a file (lines 89-104). -/
def classify (cyFile : CyFile) : CyFile :=
  if HasSuffix cyFile.Name (utf8 "-pic.png") then
    { cyFile with ExtractionMethod := utf8 "Screenshot of PicView.exe from Cybiko SDK",
                  OriginalType := utf8 "PIC" }
  else if HasSuffix cyFile.Name (utf8 "-ico.png") then
    { cyFile with ExtractionMethod := utf8 "Screenshot of PicView.exe from Cybiko SDK",
                  OriginalType := utf8 "ICO" }
  else if HasSuffix cyFile.Name (utf8 "-spl.txt") then
    { cyFile with
        ExtractionMethod := utf8 "Text file converted from iso-8859-1 to utf-8 using iconv",
        OriginalType := utf8 "SPL" }
  else if HasSuffix cyFile.Name (utf8 "-txt.txt") then
    { cyFile with
        ExtractionMethod := utf8 "Text file converted from iso-8859-1 to utf-8 using iconv",
        OriginalType := utf8 "TXT" }
  else
    { cyFile with ExtractionMethod := utf8 "Unknown", OriginalType := utf8 "Unknown" }

/-- State of the loop over the files of one folder. -/
structure ScanState where
  game : Game
  hasIntro : Bool
  hasIcon : Bool

/-- The loop over the files of one folder (lines 80-122); `i` is the loop index.
An error of `handleTextFile` ends the load. -/
def scanFiles (fs : FileSystem) (folderName : Str) :
    Nat → List FileInfo → ScanState → Except Str ScanState
  | _, [], st => .ok st
  | i, file :: rest, st =>
    if file.IsDir then scanFiles fs folderName (i + 1) rest st
    else
      let cyFile : CyFile := classify
        { Name := file.Name
          FilePath := utf8 "/public/resources/" ++ folderName ++ utf8 "/" ++ file.Name
          RefID := 1 + (i : Int)
          ExtractionMethod := []
          OriginalType := [] }
      let game := { st.game with CyFiles := mapSet st.game.CyFiles file.Name cyFile }
      let read : Except Str Game :=
        if file.Name = utf8 "root-spl.txt" then
          match handleTextFile fs (utf8 "/static/resources/" ++ folderName ++ utf8 "/" ++ file.Name) with
          | (_, some err) => .error err
          | (text, none) => .ok { game with Text := text, TextShortened := shortenText text }
        else .ok game
      match read with
      | .error err => .error err
      | .ok game =>
        let hasIntro := if file.Name = utf8 "intro-pic.png" then true else st.hasIntro
        let hasIcon := if file.Name = utf8 "root-ico.png" then true else st.hasIcon
        scanFiles fs folderName (i + 1) rest { game := game, hasIntro := hasIntro, hasIcon := hasIcon }

/-- Go `fmt.Sprintf` of the share message with its two `%s` verbs. -/
def tweetMessage (name folderName : Str) : Str :=
  utf8 "Remember " ++ name
    ++ utf8 "? - It's a game released for the Cybiko Classic, a handheld from the early 2000! https://cybiko.kn100.me/game/"
    ++ folderName ++ utf8 " #cybiko #retrogaming"

/-- The share-link string of a game (lines 134-136). -/
def tweetString (name folderName : Str) : Str :=
  let s := QueryEscape (tweetMessage name folderName)
  ReplaceAll s (utf8 " ") (utf8 "%20")

/-- Body of the loop over the folders (lines 66-136) for the folder at index `i`. -/
def loadGame (fs : FileSystem) (i : Nat) (folderName : Str) : Except Str Game :=
  let game : Game :=
    { Name := makeTitle folderName
      FolderName := folderName
      CyFiles := []
      IntroImg := []
      IconImg := []
      Text := []
      TextShortened := []
      PageNumber := 0
      TweetString := [] }
  match fs.ReadDir (utf8 "/static/resources/" ++ folderName) with
  | .error err => .error err
  | .ok files =>
    match scanFiles fs folderName 0 files { game := game, hasIntro := false, hasIcon := false } with
    | .error err => .error err
    | .ok st =>
      let game := st.game
      let game := { game with IntroImg :=
        (if st.hasIntro then utf8 "/public/resources/" ++ folderName ++ utf8 "/intro-pic.png"
         else utf8 "https://via.placeholder.com/160x100.png") }
      let game := { game with IconImg :=
        (if st.hasIcon then utf8 "/public/resources/" ++ folderName ++ utf8 "/root-ico.png"
         else utf8 "https://via.placeholder.com/48x48.png") }
      let game := { game with PageNumber := (i : Int) / PageSize + 1 }
      let game := { game with TweetString := tweetString game.Name game.FolderName }
      .ok game

/-- The loop over the folders (lines 64-143): `games` is `cy.Games`, which keeps
the games appended so far when a read fails. -/
def loadLoop (fs : FileSystem) : Nat → List Str → List Game → List Game × Err
  | _, [], games => (games, none)
  | i, folderName :: rest, games =>
    match loadGame fs i folderName with
    | .error err => (games, some err)
    | .ok game => loadLoop fs (i + 1) rest (games ++ [game])

/-- Outcome of `Load`: a panic, or the catalogue together with the returned error. -/
inductive LoadOutcome where
  | panicked (err : Str)
  | returned (cy : CyData) (err : Err)

/-- Method `Load` (lines 56-145). -/
def Load (fs : FileSystem) : LoadOutcome :=
  match foldersWhichExist fs with
  | .error err => .panicked err
  | .ok folders =>
    let r := loadLoop fs 0 folders []
    .returned { Games := r.1 } r.2

/-! ## The listing handler (`main.go` lines 25-34, 91-140) -/

/-- Struct `page`. -/
structure page where
  Page : Int
  IsActive : Bool
  IsFirst : Bool
  IsLast : Bool
deriving DecidableEq

/-- Struct `overviewResponse`. -/
structure overviewResponse where
  Games : Slice Game
  Pages : Slice page
deriving DecidableEq

/-- Constant `PageLimit`. -/
def PageLimit : Int := 32

/-- What the listing handler sends: the 404 error or the rendered listing. -/
inductive Response where
  | notFound
  | rendered (gwh : overviewResponse)
deriving DecidableEq

/-- One iteration of the pagination loop (lines 123-133) for the counter `i`. -/
def pageEntry (cyData : CyData) (limit pageInt i : Int) : page :=
  let p : page := { Page := i, IsActive := false, IsFirst := false, IsLast := false }
  let p := if i = 1 then { p with IsFirst := true } else p
  let p := if i = cyData.Length / limit then { p with IsLast := true } else p
  let p := if i = pageInt then { p with IsActive := true } else p
  p

/-- The pagination loop `for i := 1; i <= Length()/limit+1; i++` (lines 121-134). -/
def buildPages (cyData : CyData) (limit pageInt : Int) : Slice page :=
  (List.range (cyData.Length / limit + 1).toNat).foldl
    (fun pages (k : Nat) => pages.append (pageEntry cyData limit pageInt ((k : Int) + 1)))
    (some [])

/-- Function `GetTemplatedArchiveSiteHandler` on the route variable `page`. -/
def GetTemplatedArchiveSiteHandler (cyData : CyData) (pageStr : Str) : Response :=
  let pageInt : Int := 1
  let parsed : Option (Int × Int × Slice Game) :=
    if pageStr = utf8 "all" then
      some ((cyData.Games.length : Int) + 1, pageInt, cyData.GetAllGames)
    else
      match Atoi pageStr with
      | none => none
      | some pageInt => some (PageLimit, pageInt, cyData.GetGamesOnPage pageInt)
  match parsed with
  | none => Response.notFound
  | some (limit, pageInt, games) =>
    if games = none then Response.notFound
    else Response.rendered { Games := games, Pages := buildPages cyData limit pageInt }

/-! ## Specification-side definitions and sample data -/

/-- The clamped page number `min (max p 1) (Length/32 + 1)`. -/
def clampPage (cy : CyData) (p : Int) : Int := min (max p 1) (cy.Length / 32 + 1)

/-- A game record with the given folder name and page number. -/
def mkGame (folderName : Str) (pageNumber : Int) : Game :=
  { Name := []
    FolderName := folderName
    CyFiles := []
    IntroImg := []
    IconImg := []
    Text := []
    TextShortened := []
    PageNumber := pageNumber
    TweetString := [] }

/-- The two-folder catalogue `alpha_two`, `beta_one`, both on page 1. -/
def sampleCatalog : CyData :=
  { Games := [mkGame (utf8 "alpha_two") 1, mkGame (utf8 "beta_one") 1] }

/-- A catalogue of `n` games whose page numbers are assigned by position. -/
def positionalCatalog (n : Nat) : CyData :=
  { Games := (List.range n).map (fun i : Nat => mkGame [i] ((i : Int) / 32 + 1)) }

/-- Every read the loader performs for the folder succeeds: the directory
listing, and the text file `root-spl.txt` when the folder has one. -/
def readsSucceed (fs : FileSystem) (folderName : Str) : Prop :=
  ∃ files, fs.ReadDir (utf8 "/static/resources/" ++ folderName) = .ok files ∧
    ∀ file ∈ files, file.IsDir = false → file.Name = utf8 "root-spl.txt" →
      ∃ text, fs.ReadFile
        (utf8 "/static/resources/" ++ folderName ++ utf8 "/" ++ file.Name) = .ok text

/-- A resources root with the folders `beta_one` and `alpha_two` (listed in that
order, next to a plain file); `alpha_two` holds an icon and a description. -/
def sampleFS : FileSystem :=
  { ReadDir := fun path =>
      if path = utf8 "/static/resources/" then
        .ok [⟨utf8 "beta_one", true⟩, ⟨utf8 "readme.txt", false⟩, ⟨utf8 "alpha_two", true⟩]
      else if path = utf8 "/static/resources/alpha_two" then
        .ok [⟨utf8 "root-ico.png", false⟩, ⟨utf8 "root-spl.txt", false⟩]
      else if path = utf8 "/static/resources/beta_one" then .ok []
      else .error (utf8 "no such directory")
    ReadFile := fun path =>
      if path = utf8 "/static/resources/alpha_two/root-spl.txt" then .ok (utf8 "a<b>c")
      else .error (utf8 "no such file") }

/-- The per-character output table of the game text: the escape of
`html.EscapeString`, the line break for a newline, and the `kbd` marker around
the escaped angle brackets. -/
def formatByte (c : Nat) : Str :=
  if c = byte '<' then utf8 "<kbd>&lt;"
  else if c = byte '>' then utf8 "&gt;</kbd>"
  else if c = byte '&' then utf8 "&amp;"
  else if c = byte '\'' then utf8 "&#39;"
  else if c = byte '"' then utf8 "&#34;"
  else if c = byte '\n' then utf8 "<br>"
  else [c]

/-- The same table on characters: a character outside the table contributes its
own UTF-8 bytes. -/
def formatChar (c : Char) : Str :=
  if c = '<' then utf8 "<kbd>&lt;"
  else if c = '>' then utf8 "&gt;</kbd>"
  else if c = '&' then utf8 "&amp;"
  else if c = '\'' then utf8 "&#39;"
  else if c = '"' then utf8 "&#34;"
  else if c = '\n' then utf8 "<br>"
  else utf8EncodeChar c.toNat

/-- Output table after the newline pass and before `addFormatting`. -/
def breakByte (c : Nat) : Str :=
  if c = byte '\n' then utf8 "<br>" else escapeByte c

/-- Output table after the first pass of `addFormatting`. -/
def openByte (c : Nat) : Str :=
  if c = byte '<' then utf8 "<kbd>&lt;" else breakByte c

/-! # Theorems -/

/-! ## Lemmas on the accumulating loops -/

/-- A loop appending the elements that pass a test computes a filter. -/
theorem foldl_append_filter {α : Type} (p : α → Prop) [DecidablePred p] (l acc : List α) :
    l.foldl (fun games x => if p x then Slice.append games x else games) (some acc)
      = some (acc ++ l.filter (fun x => decide (p x))) := by
  induction l generalizing acc with
  | nil => simp
  | cons x xs ih =>
    by_cases hx : p x
    · have h := ih (acc ++ [x])
      simp only [List.foldl_cons, if_pos hx, Slice.append, Option.getD_some] at h ⊢
      rw [h]
      simp [hx]
    · simp [List.foldl_cons, hx, ih]

/-- Closed form of `GetGamesOnPage`. -/
theorem GetGamesOnPage_eq (cy : CyData) (p : Int) :
    cy.GetGamesOnPage p =
      if cy.Games.filter (fun g => decide (g.PageNumber = clampPage cy p)) = [] then none
      else some (cy.Games.filter (fun g => decide (g.PageNumber = clampPage cy p))) := by
  have hc : (if (if p < 1 then 1 else p) > cy.Length / PageSize + 1
      then cy.Length / PageSize + 1 else (if p < 1 then 1 else p)) = clampPage cy p := by
    have hl : (0 : Int) ≤ cy.Length := by simp [CyData.Length]
    simp only [clampPage, PageSize]
    split_ifs <;> omega
  simp only [CyData.GetGamesOnPage, hc]
  rw [foldl_append_filter (fun g : Game => g.PageNumber = clampPage cy p)]
  simp [Slice.len]

/-- The clamp is idempotent: a clamped page number is its own clamp. -/
theorem clampPage_idem (cy : CyData) (p : Int) : clampPage cy (clampPage cy p) = clampPage cy p := by
  have hl : (0 : Int) ≤ cy.Length := by simp [CyData.Length]
  simp only [clampPage]
  omega

/-- C1. `GetGamesOnPage p` is the catalogue filtered, in catalogue order, by
`PageNumber = min (max p 1) (Length/32 + 1)`, and is `nil` when that filter is
empty; hence every `p < 1` gives the result of page 1 and every
`p > Length/32 + 1` the result of page `Length/32 + 1`. -/
theorem GetGamesOnPage_spec (cy : CyData) (p : Int) :
    (cy.GetGamesOnPage p =
      if cy.Games.filter (fun g => decide (g.PageNumber = min (max p 1) (cy.Length / 32 + 1))) = []
      then none
      else some (cy.Games.filter
        (fun g => decide (g.PageNumber = min (max p 1) (cy.Length / 32 + 1)))))
    ∧ (p < 1 → cy.GetGamesOnPage p = cy.GetGamesOnPage 1)
    ∧ (p > cy.Length / 32 + 1 → cy.GetGamesOnPage p = cy.GetGamesOnPage (cy.Length / 32 + 1)) := by
  have hl : (0 : Int) ≤ cy.Length := by simp [CyData.Length]
  refine ⟨GetGamesOnPage_eq cy p, fun h => ?_, fun h => ?_⟩
  · have e : clampPage cy p = clampPage cy 1 := by simp only [clampPage]; omega
    rw [GetGamesOnPage_eq, GetGamesOnPage_eq, e]
  · have e : clampPage cy p = clampPage cy (cy.Length / 32 + 1) := by
      simp only [clampPage]; omega
    rw [GetGamesOnPage_eq, GetGamesOnPage_eq, e]

/-- C1 at the sample catalogue: page `-3` is served as page 1 and page 7 as page
`2/32 + 1 = 1`. -/
theorem GetGamesOnPage_spec_witness :
    sampleCatalog.GetGamesOnPage (-3) = sampleCatalog.GetGamesOnPage 1
    ∧ sampleCatalog.GetGamesOnPage 7
        = sampleCatalog.GetGamesOnPage (sampleCatalog.Length / 32 + 1) :=
  ⟨(GetGamesOnPage_spec sampleCatalog (-3)).2.1 (by decide),
   (GetGamesOnPage_spec sampleCatalog 7).2.2 (by decide)⟩

/-! ## `GetGames` -/

/-- The games selected for one requested name. -/
theorem GetGames_inner (cy : CyData) (n : Str) (acc : List Game) :
    cy.Games.foldl (fun games game =>
        if game.FolderName = n then Slice.append games game else games) (some acc)
      = some (acc ++ cy.Games.filter (fun g => decide (g.FolderName = n))) :=
  foldl_append_filter (fun g : Game => g.FolderName = n) cy.Games acc

/-- The outer loop of `GetGames` concatenates the per-name selections. -/
theorem GetGames_outer (cy : CyData) (names : List Str) (acc : List Game) :
    names.foldl (fun games gameName =>
        cy.Games.foldl (fun games game =>
          if game.FolderName = gameName then Slice.append games game else games) games)
        (some acc)
      = some (acc ++ names.flatMap
          (fun n => cy.Games.filter (fun g => decide (g.FolderName = n)))) := by
  induction names generalizing acc with
  | nil => simp
  | cons n ns ih =>
    rw [List.foldl_cons, GetGames_inner, ih]
    simp [List.flatMap_cons]

/-- Closed form of `GetGames`: names in request order, catalogue order within a name. -/
theorem GetGames_eq (cy : CyData) (names : List Str) :
    cy.GetGames names
      = (some (names.flatMap
          (fun n => cy.Games.filter (fun g => decide (g.FolderName = n)))), none) := by
  simp only [CyData.GetGames]
  rw [GetGames_outer]
  simp

/-- Splitting a membership filter at a name that is not repeated. -/
theorem filter_mem_cons_perm (l : List Game) (n : Str) (ns : List Str) (hn : n ∉ ns) :
    List.Perm (l.filter (fun g => decide (g.FolderName ∈ n :: ns)))
      (l.filter (fun g => decide (g.FolderName = n))
        ++ l.filter (fun g => decide (g.FolderName ∈ ns))) := by
  induction l with
  | nil => simp
  | cons g gs ih =>
    by_cases h1 : g.FolderName = n
    · subst h1
      have e1 : (g :: gs).filter (fun x => decide (x.FolderName ∈ g.FolderName :: ns))
          = g :: gs.filter (fun x => decide (x.FolderName ∈ g.FolderName :: ns)) := by
        simp [List.filter_cons]
      have e2 : (g :: gs).filter (fun x => decide (x.FolderName = g.FolderName))
          = g :: gs.filter (fun x => decide (x.FolderName = g.FolderName)) := by
        simp [List.filter_cons]
      have e3 : (g :: gs).filter (fun x => decide (x.FolderName ∈ ns))
          = gs.filter (fun x => decide (x.FolderName ∈ ns)) := by
        simp [List.filter_cons, hn]
      rw [e1, e2, e3, List.cons_append]
      exact List.Perm.cons g ih
    · by_cases h2 : g.FolderName ∈ ns
      · simp only [List.filter_cons, h1, h2, List.mem_cons, or_true, decide_True, decide_False,
          if_true]
        refine List.Perm.trans (List.Perm.cons g ?_) List.perm_middle.symm
        simpa using ih
      · simp only [List.filter_cons, h1, h2, List.mem_cons, or_self, decide_False]
        simpa using ih

/-- For pairwise distinct names the concatenated selections rearrange the
membership filter. -/
theorem flatMap_filter_perm (l : List Game) (names : List Str) (hd : names.Nodup) :
    List.Perm (names.flatMap (fun n => l.filter (fun g => decide (g.FolderName = n))))
      (l.filter (fun g => decide (g.FolderName ∈ names))) := by
  induction names with
  | nil => simp
  | cons n ns ih =>
    have hn : n ∉ ns := (List.nodup_cons.mp hd).1
    have hns : ns.Nodup := (List.nodup_cons.mp hd).2
    rw [List.flatMap_cons]
    exact List.Perm.trans (List.Perm.append_left _ (ih hns)) (filter_mem_cons_perm l n ns hn).symm

/-- C2, as stated, fails: asked for `beta_one` then `alpha_two`, `GetGames` returns
the games in the order of the request, not in catalogue order. -/
theorem GetGames_request_order_counterexample :
    (sampleCatalog.GetGames [utf8 "beta_one", utf8 "alpha_two"]).1
      ≠ some (sampleCatalog.Games.filter
          (fun g => decide (g.FolderName ∈ [utf8 "beta_one", utf8 "alpha_two"]))) := by
  decide

/-- C2, amended. `GetGames names` returns, for each name in the order of the
request (a repeated name again), the catalogue games with that `FolderName` in
catalogue order, and no error; for pairwise distinct names this is a
rearrangement of the catalogue filtered by membership of `FolderName` in
`names`, and for a single name it is that filtered catalogue itself. -/
theorem GetGames_spec (cy : CyData) (names : List Str) :
    cy.GetGames names
      = (some (names.flatMap
          (fun n => cy.Games.filter (fun g => decide (g.FolderName = n)))), none)
    ∧ (names.Nodup →
        List.Perm
          (names.flatMap (fun n => cy.Games.filter (fun g => decide (g.FolderName = n))))
          (cy.Games.filter (fun g => decide (g.FolderName ∈ names))))
    ∧ (∀ n, names = [n] →
        cy.GetGames names
          = (some (cy.Games.filter (fun g => decide (g.FolderName ∈ names))), none)) := by
  refine ⟨GetGames_eq cy names, flatMap_filter_perm cy.Games names, ?_⟩
  intro n hn
  subst hn
  rw [GetGames_eq]
  simp

/-- C2 amended, at the sample catalogue with the two names in reverse order. -/
theorem GetGames_spec_witness :
    List.Perm
      ([utf8 "beta_one", utf8 "alpha_two"].flatMap
        (fun n => sampleCatalog.Games.filter (fun g => decide (g.FolderName = n))))
      (sampleCatalog.Games.filter
        (fun g => decide (g.FolderName ∈ [utf8 "beta_one", utf8 "alpha_two"])))
    ∧ sampleCatalog.GetGames [utf8 "beta_one"]
        = (some (sampleCatalog.Games.filter
            (fun g => decide (g.FolderName ∈ [utf8 "beta_one"]))), none) :=
  ⟨(GetGames_spec sampleCatalog [utf8 "beta_one", utf8 "alpha_two"]).2.1 (by decide),
   (GetGames_spec sampleCatalog [utf8 "beta_one"]).2.2 (utf8 "beta_one") rfl⟩

/-- With pairwise distinct keys at most one element carries a given key. -/
theorem filter_key_nodup (l : List Game) (name : Str)
    (hd : (l.map Game.FolderName).Nodup) :
    (l.filter (fun g => decide (g.FolderName = name)) = [] ∧ ∀ g ∈ l, g.FolderName ≠ name)
    ∨ ∃ g, g ∈ l ∧ g.FolderName = name
        ∧ l.filter (fun g => decide (g.FolderName = name)) = [g] := by
  induction l with
  | nil => left; simp
  | cons x xs ih =>
    rw [List.map_cons, List.nodup_cons] at hd
    by_cases hx : x.FolderName = name
    · right
      refine ⟨x, List.mem_cons_self _ _, hx, ?_⟩
      have hnone : ∀ g ∈ xs, g.FolderName ≠ name := by
        intro g hg hgn
        exact hd.1 (List.mem_map.mpr ⟨g, hg, by rw [hgn, hx]⟩)
      have : xs.filter (fun g => decide (g.FolderName = name)) = [] := by
        rw [List.filter_eq_nil_iff]
        intro g hg
        simpa using hnone g hg
      simp [List.filter_cons, hx, this]
    · rcases ih hd.2 with ⟨h1, h2⟩ | ⟨g, hg, hgn, hf⟩
      · left
        refine ⟨by simp [List.filter_cons, hx, h1], ?_⟩
        intro g hg
        rcases List.mem_cons.mp hg with rfl | hg
        · exact hx
        · exact h2 g hg
      · right
        exact ⟨g, List.mem_cons_of_mem _ hg, hgn, by simp [List.filter_cons, hx, hf]⟩

/-- C3. In a catalogue with pairwise distinct folder names, `GetGames [name]`
returns exactly the one game with that `FolderName` when there is one, and a
non-nil slice of length 0 when there is none; the error is `nil` in both cases. -/
theorem GetGames_single (cy : CyData) (name : Str)
    (hd : (cy.Games.map Game.FolderName).Nodup) :
    ((∃ g ∈ cy.Games, g.FolderName = name) →
      ∃ g, g ∈ cy.Games ∧ g.FolderName = name
        ∧ (∀ g2 ∈ cy.Games, g2.FolderName = name → g2 = g)
        ∧ cy.GetGames [name] = (some [g], none))
    ∧ ((¬ ∃ g ∈ cy.Games, g.FolderName = name) → cy.GetGames [name] = (some [], none)) := by
  have hf : ∀ l : List Game, [name].flatMap
      (fun n => l.filter (fun g => decide (g.FolderName = n)))
        = l.filter (fun g => decide (g.FolderName = name)) := by
    intro l; simp
  rw [GetGames_eq, hf]
  constructor
  · rintro ⟨g0, hg0, hg0n⟩
    rcases filter_key_nodup cy.Games name hd with ⟨_, h2⟩ | ⟨g, hg, hgn, hfl⟩
    · exact absurd hg0n (h2 g0 hg0)
    · refine ⟨g, hg, hgn, ?_, by rw [hfl]⟩
      intro g2 hg2 hg2n
      have : g2 ∈ cy.Games.filter (fun g => decide (g.FolderName = name)) := by
        rw [List.mem_filter]; exact ⟨hg2, by simpa using hg2n⟩
      rw [hfl] at this
      simpa using this
  · intro hne
    rcases filter_key_nodup cy.Games name hd with ⟨h1, _⟩ | ⟨g, hg, hgn, _⟩
    · rw [h1]
    · exact absurd ⟨g, hg, hgn⟩ hne

/-- C3 at the sample catalogue: `alpha_two` is found, `gamma` is not. -/
theorem GetGames_single_witness :
    (∃ g, g ∈ sampleCatalog.Games ∧ g.FolderName = utf8 "alpha_two"
        ∧ (∀ g2 ∈ sampleCatalog.Games, g2.FolderName = utf8 "alpha_two" → g2 = g)
        ∧ sampleCatalog.GetGames [utf8 "alpha_two"] = (some [g], none))
    ∧ sampleCatalog.GetGames [utf8 "gamma"] = (some [], none) :=
  ⟨(GetGames_single sampleCatalog (utf8 "alpha_two") (by decide)).1
      ⟨mkGame (utf8 "alpha_two") 1, by decide, by decide⟩,
   (GetGames_single sampleCatalog (utf8 "gamma") (by decide)).2 (by decide)⟩

/-! ## Empty pages -/

/-- When page numbers are assigned by position, some game lies on page `c`
exactly when `32 * (c - 1)` is a valid index. -/
theorem exists_on_page_iff (l : List Game) (c : Int) (hc : 1 ≤ c)
    (hpn : ∀ i (h : i < l.length), (l.get ⟨i, h⟩).PageNumber = (i : Int) / 32 + 1) :
    (∃ g ∈ l, g.PageNumber = c) ↔ 32 * (c - 1) < (l.length : Int) := by
  constructor
  · rintro ⟨g, hg, hgc⟩
    obtain ⟨⟨i, hi⟩, rfl⟩ := List.mem_iff_get.mp hg
    have := hpn i hi
    omega
  · intro h
    have hi : (32 * (c - 1)).toNat < l.length := by omega
    refine ⟨l.get ⟨(32 * (c - 1)).toNat, hi⟩, List.get_mem _ _ _, ?_⟩
    rw [hpn _ hi]
    omega

/-- On a numeric page request the listing handler answers 404 exactly when
`GetGamesOnPage` returns `nil`, and renders the page otherwise. -/
theorem handler_numeric (cy : CyData) (s : Str) (p : Int)
    (hs : s ≠ utf8 "all") (ha : Atoi s = some p) :
    (GetTemplatedArchiveSiteHandler cy s = Response.notFound ↔ cy.GetGamesOnPage p = none)
    ∧ (cy.GetGamesOnPage p ≠ none →
        GetTemplatedArchiveSiteHandler cy s
          = Response.rendered
              { Games := cy.GetGamesOnPage p, Pages := buildPages cy PageLimit p }) := by
  simp only [GetTemplatedArchiveSiteHandler, if_neg hs, ha]
  by_cases h : cy.GetGamesOnPage p = none
  · simp [h]
  · simp [h]

/-- C10. In a catalogue of `n` games whose page numbers are assigned by position
(index `i` on page `i/32 + 1`), `GetGamesOnPage p` is `nil` exactly when `n` is
a multiple of 32 and `n = 0` or `p > n/32`; so for a positive multiple of 32
the top page `n/32 + 1` is empty, and otherwise no page request yields `nil`.
The listing handler turns that `nil` into the 404 answer: a numeric request
for page `p` is answered 404 under exactly the same condition. -/
theorem GetGamesOnPage_nil_iff (cy : CyData) (p : Int)
    (hpn : ∀ i (h : i < cy.Games.length),
      (cy.Games.get ⟨i, h⟩).PageNumber = (i : Int) / 32 + 1) :
    (cy.GetGamesOnPage p = none ↔
      cy.Games.length % 32 = 0 ∧ (cy.Games.length = 0 ∨ p > cy.Length / 32))
    ∧ (0 < cy.Games.length → cy.Games.length % 32 = 0 →
        cy.GetGamesOnPage (cy.Length / 32 + 1) = none)
    ∧ (cy.Games.length % 32 ≠ 0 → ∀ q : Int, cy.GetGamesOnPage q ≠ none)
    ∧ (∀ s : Str, s ≠ utf8 "all" → Atoi s = some p →
        (GetTemplatedArchiveSiteHandler cy s = Response.notFound ↔
          cy.Games.length % 32 = 0 ∧ (cy.Games.length = 0 ∨ p > cy.Length / 32))) := by
  have key : ∀ q : Int, cy.GetGamesOnPage q = none ↔
      cy.Games.length % 32 = 0 ∧ (cy.Games.length = 0 ∨ q > cy.Length / 32) := by
    intro q
    have hc1 : 1 ≤ clampPage cy q := by
      have hl : (0 : Int) ≤ cy.Length := by simp [CyData.Length]
      simp only [clampPage]; omega
    have hex := exists_on_page_iff cy.Games (clampPage cy q) hc1 hpn
    rw [GetGamesOnPage_eq]
    have hnil : cy.Games.filter (fun g => decide (g.PageNumber = clampPage cy q)) = []
        ↔ ¬ ∃ g ∈ cy.Games, g.PageNumber = clampPage cy q := by
      rw [List.filter_eq_nil_iff]
      simp
    have hsplit : (if cy.Games.filter (fun g => decide (g.PageNumber = clampPage cy q)) = []
        then (none : Slice Game)
        else some (cy.Games.filter (fun g => decide (g.PageNumber = clampPage cy q)))) = none
        ↔ cy.Games.filter (fun g => decide (g.PageNumber = clampPage cy q)) = [] := by
      split_ifs with h <;> simp [h]
    rw [hsplit, hnil, hex]
    simp only [clampPage, CyData.Length]
    omega
  refine ⟨key p, ?_, ?_, ?_⟩
  · intro h0 hm
    rw [key]
    refine ⟨hm, Or.inr ?_⟩
    omega
  · intro hm q hq
    exact hm ((key q).mp hq).1
  · intro s hs ha
    exact (handler_numeric cy s p hs ha).1.trans (key p)

/-- A catalogue of `n` games with page numbers assigned by position. -/
theorem positionalCatalog_pages (n : Nat) :
    ∀ i (h : i < (positionalCatalog n).Games.length),
      ((positionalCatalog n).Games.get ⟨i, h⟩).PageNumber = (i : Int) / 32 + 1 := by
  intro i h
  simp [positionalCatalog, mkGame]

/-- C10 at catalogues of 64 and of 2 games: page 3 of 64 games is `nil` and the
request `/page/3` is answered 404, and no page of 2 games is `nil`. -/
theorem GetGamesOnPage_nil_iff_witness :
    (positionalCatalog 64).GetGamesOnPage 3 = none
    ∧ (∀ q : Int, (positionalCatalog 2).GetGamesOnPage q ≠ none)
    ∧ GetTemplatedArchiveSiteHandler (positionalCatalog 64) (utf8 "3") = Response.notFound :=
  ⟨(GetGamesOnPage_nil_iff (positionalCatalog 64) 3 (positionalCatalog_pages 64)).2.1
      (by simp [positionalCatalog]) (by simp [positionalCatalog]),
   (GetGamesOnPage_nil_iff (positionalCatalog 2) 0 (positionalCatalog_pages 2)).2.2.1
      (by simp [positionalCatalog]),
   ((GetGamesOnPage_nil_iff (positionalCatalog 64) 3 (positionalCatalog_pages 64)).2.2.2
      (utf8 "3") (by decide) (by decide)).mpr
      ⟨by simp [positionalCatalog], Or.inr (by simp [positionalCatalog, CyData.Length])⟩⟩

/-! ## The loader -/

/-- A successful read makes `handleTextFile` return without error. -/
theorem handleTextFile_ok (fs : FileSystem) (path text : Str)
    (h : fs.ReadFile path = .ok text) :
    ∃ t, handleTextFile fs path = (t, none) := by
  simp only [handleTextFile, h]
  split_ifs
  · exact ⟨_, rfl⟩
  · exact ⟨_, rfl⟩

/-- When the text file can be read, the loop over the files of a folder ends
normally and leaves the folder name of the game untouched. -/
theorem scanFiles_ok (fs : FileSystem) (folderName : Str) (files : List FileInfo) :
    ∀ (i : Nat) (st : ScanState),
      (∀ file ∈ files, file.IsDir = false → file.Name = utf8 "root-spl.txt" →
        ∃ text, fs.ReadFile
          (utf8 "/static/resources/" ++ folderName ++ utf8 "/" ++ file.Name) = .ok text) →
      ∃ st2, scanFiles fs folderName i files st = .ok st2
        ∧ st2.game.FolderName = st.game.FolderName := by
  induction files with
  | nil => intro i st _; exact ⟨st, rfl, rfl⟩
  | cons file rest ih =>
    intro i st h
    have hrest : ∀ f ∈ rest, f.IsDir = false → f.Name = utf8 "root-spl.txt" →
        ∃ text, fs.ReadFile
          (utf8 "/static/resources/" ++ folderName ++ utf8 "/" ++ f.Name) = .ok text :=
      fun f hf => h f (List.mem_cons_of_mem _ hf)
    by_cases hd : file.IsDir = true
    · rw [scanFiles, if_pos hd]
      exact ih (i + 1) st hrest
    · have hd2 : file.IsDir = false := by simpa using hd
      rw [scanFiles, if_neg hd]
      by_cases hn : file.Name = utf8 "root-spl.txt"
      · obtain ⟨text, ht⟩ := h file (List.mem_cons_self _ _) hd2 hn
        obtain ⟨t, ht2⟩ := handleTextFile_ok fs _ text ht
        simp only [if_pos hn, ht2]
        obtain ⟨st2, h1, h2⟩ := ih (i + 1) _ hrest
        exact ⟨st2, h1, h2⟩
      · simp only [if_neg hn]
        obtain ⟨st2, h1, h2⟩ := ih (i + 1) _ hrest
        exact ⟨st2, h1, h2⟩

/-- The loop body builds, for the folder at index `i`, a game named after the
folder and placed on page `i/32 + 1`. -/
theorem loadGame_ok (fs : FileSystem) (i : Nat) (folderName : Str)
    (h : readsSucceed fs folderName) :
    ∃ g, loadGame fs i folderName = .ok g ∧ g.FolderName = folderName
      ∧ g.PageNumber = (i : Int) / 32 + 1 := by
  obtain ⟨files, hdir, hfiles⟩ := h
  simp only [loadGame, hdir]
  obtain ⟨st2, h1, h2⟩ := scanFiles_ok fs folderName files 0 _ hfiles
  rw [h1]
  exact ⟨_, rfl, h2, by simp [PageSize]⟩

/-- The loop over the folders, started at index `i`, appends one game per folder,
in order, the `N`-th new game on page `(i + N)/32 + 1`. -/
theorem loadLoop_ok (fs : FileSystem) (folders : List Str) :
    ∀ (i : Nat) (acc : List Game), (∀ f ∈ folders, readsSucceed fs f) →
      ∃ new, loadLoop fs i folders acc = (acc ++ new, none)
        ∧ new.map Game.FolderName = folders
        ∧ ∀ N (h : N < new.length),
            (new.get ⟨N, h⟩).PageNumber = ((i + N : Nat) : Int) / 32 + 1 := by
  induction folders with
  | nil => intro i acc _; exact ⟨[], by simp [loadLoop], rfl, by simp⟩
  | cons f rest ih =>
    intro i acc h
    obtain ⟨g, hg, hgf, hgp⟩ := loadGame_ok fs i f (h f (List.mem_cons_self _ _))
    obtain ⟨new, hnew, hmap, hpages⟩ :=
      ih (i + 1) (acc ++ [g]) (fun f2 hf2 => h f2 (List.mem_cons_of_mem _ hf2))
    refine ⟨g :: new, ?_, ?_, ?_⟩
    · rw [loadLoop, hg]
      simp only [hnew]
      simp
    · simp [hgf, hmap]
    · intro N hN
      cases N with
      | zero => simpa using hgp
      | succ M =>
        have hM : M < new.length := by simpa using hN
        have := hpages M hM
        simp only [List.get_eq_getElem, List.getElem_cons_succ] at this ⊢
        rw [this]
        congr 2
        omega

/-- At most 32 indices below `n` have the page number `k`. -/
theorem page_indices_le (n : Nat) (k : Int) :
    ((List.range n).filter (fun i : Nat => decide ((i : Int) / 32 + 1 = k))).length ≤ 32 := by
  have hnd : ((List.range n).filter (fun i : Nat => decide ((i : Int) / 32 + 1 = k))).Nodup :=
    (List.nodup_range n).filter _
  rw [← List.toFinset_card_of_nodup hnd]
  have hsub : ((List.range n).filter (fun i : Nat => decide ((i : Int) / 32 + 1 = k))).toFinset
      ⊆ Finset.Ico (32 * (k - 1)).toNat ((32 * (k - 1)).toNat + 32) := by
    intro i hi
    simp only [List.mem_toFinset, List.mem_filter, List.mem_range, decide_eq_true_eq] at hi
    rw [Finset.mem_Ico]
    omega
  calc _ ≤ (Finset.Ico (32 * (k - 1)).toNat ((32 * (k - 1)).toNat + 32)).card :=
        Finset.card_le_card hsub
    _ = 32 := by simp

/-- In a list whose page numbers are assigned by position, at most 32 games
share a page number. -/
theorem page_share_le (l : List Game) (k : Int)
    (hpn : ∀ N (h : N < l.length), (l.get ⟨N, h⟩).PageNumber = (N : Int) / 32 + 1) :
    (l.filter (fun g => decide (g.PageNumber = k))).length ≤ 32 := by
  have hmap : l.map Game.PageNumber = (List.range l.length).map (fun i : Nat => (i : Int) / 32 + 1) := by
    apply List.ext_get
    · simp
    · intro N h1 h2
      have := hpn N (by simpa using h1)
      simpa using this
  have h1 : (l.filter (fun g => decide (g.PageNumber = k))).length
      = ((l.map Game.PageNumber).filter (fun x => decide (x = k))).length := by
    rw [List.filter_map, List.length_map]
    rfl
  rw [h1, hmap, List.filter_map, List.length_map]
  exact page_indices_le l.length k

/-- Two strings are comparable in the byte-wise order. -/
theorem strLess_total (a : Str) : ∀ b : Str, strLess b a = false ∨ strLess a b = false := by
  induction a with
  | nil => intro b; cases b <;> simp [strLess]
  | cons x xs ih =>
    intro b
    cases b with
    | nil => simp [strLess]
    | cons y ys =>
      simp only [strLess]
      rcases Nat.lt_trichotomy x y with h | h | h
      · simp [h, Nat.lt_asymm h]
      · subst h; simpa using ih ys
      · simp [h, Nat.lt_asymm h]

/-- The relation "not greater" of the byte-wise order is transitive. -/
theorem strLess_trans (a : Str) : ∀ b c : Str,
    strLess b a = false → strLess c b = false → strLess c a = false := by
  induction a with
  | nil => intro b c _ _; cases c <;> simp [strLess]
  | cons x xs ih =>
    intro b c h1 h2
    cases b with
    | nil => cases c <;> simp [strLess] at h1 h2 ⊢
    | cons y ys =>
      cases c with
      | nil => simp [strLess] at h2
      | cons z zs =>
        simp only [strLess] at h1 h2 ⊢
        split_ifs at h1 h2 ⊢ <;> first
          | omega
          | rfl
          | exact ih ys zs h1 h2

/-- The folder list is in ascending byte-wise order. -/
theorem foldersWhichExist_sorted (fs : FileSystem) (folders : List Str)
    (hf : foldersWhichExist fs = .ok folders) :
    folders.Sorted (fun a b => strLess b a = false) := by
  haveI : IsTotal Str (fun a b => strLess b a = false) :=
    ⟨fun a b => (strLess_total b a).symm⟩
  haveI : IsTrans Str (fun a b => strLess b a = false) :=
    ⟨fun a b c h1 h2 => strLess_trans a b c h1 h2⟩
  simp only [foldersWhichExist] at hf
  split at hf
  · cases hf
  · injection hf with hf
    rw [← hf]
    exact List.sorted_insertionSort _ _

/-- C4. When the folder listing and every per-folder read succeed, `Load`
returns without error a catalogue with one game per folder, in the ascending
order of the sorted folder list, the game at position `N` on page `N/32 + 1`;
so page numbers never decrease along the catalogue and at most 32 games share
one. -/
theorem Load_pages (fs : FileSystem) (folders : List Str)
    (hf : foldersWhichExist fs = .ok folders)
    (hr : ∀ f ∈ folders, readsSucceed fs f) :
    ∃ games, Load fs = .returned { Games := games } none
      ∧ games.map Game.FolderName = folders
      ∧ (games.map Game.FolderName).Sorted (fun a b => strLess b a = false)
      ∧ (∀ N (h : N < games.length), (games.get ⟨N, h⟩).PageNumber = (N : Int) / 32 + 1)
      ∧ (∀ M N (hM : M < games.length) (hN : N < games.length), M ≤ N →
          (games.get ⟨M, hM⟩).PageNumber ≤ (games.get ⟨N, hN⟩).PageNumber)
      ∧ (∀ k : Int, (games.filter (fun g => decide (g.PageNumber = k))).length ≤ 32) := by
  obtain ⟨games, hload, hmap, hpages⟩ := loadLoop_ok fs folders 0 [] hr
  have hpages2 : ∀ N (h : N < games.length),
      (games.get ⟨N, h⟩).PageNumber = (N : Int) / 32 + 1 := by
    intro N h
    simpa using hpages N h
  refine ⟨games, ?_, hmap, hmap ▸ foldersWhichExist_sorted fs folders hf, hpages2, ?_,
    fun k => page_share_le games k hpages2⟩
  · simp only [Load, hf, hload]
    simp
  · intro M N hM hN hMN
    rw [hpages2 M hM, hpages2 N hN]
    omega

/-- C4 at the sample resources root: the two folders are loaded in sorted order,
both on page 1. -/
theorem Load_pages_witness :
    ∃ games, Load sampleFS = .returned { Games := games } none
      ∧ games.map Game.FolderName = [utf8 "alpha_two", utf8 "beta_one"]
      ∧ (games.map Game.FolderName).Sorted (fun a b => strLess b a = false)
      ∧ (∀ N (h : N < games.length), (games.get ⟨N, h⟩).PageNumber = (N : Int) / 32 + 1)
      ∧ (∀ M N (hM : M < games.length) (hN : N < games.length), M ≤ N →
          (games.get ⟨M, hM⟩).PageNumber ≤ (games.get ⟨N, hN⟩).PageNumber)
      ∧ (∀ k : Int, (games.filter (fun g => decide (g.PageNumber = k))).length ≤ 32) :=
  Load_pages sampleFS [utf8 "alpha_two", utf8 "beta_one"] (by rfl) (by
    intro f hf
    simp only [List.mem_cons, List.mem_singleton, List.not_mem_nil, or_false] at hf
    rcases hf with rfl | rfl
    · refine ⟨[⟨utf8 "root-ico.png", false⟩, ⟨utf8 "root-spl.txt", false⟩], rfl, ?_⟩
      intro file hfile _ hname
      exact ⟨utf8 "a<b>c", by rw [hname]; rfl⟩
    · exact ⟨[], rfl, by simp⟩)

/-! ## The game text -/

/-- A replacement pass that acts piece by piece on a concatenation of pieces
acts on the whole concatenation. -/
theorem replaceFrom_pieces (old new : Str) (f g : Nat → Str)
    (h : ∀ c rest, replaceFrom old new 0 (f c ++ rest) = g c ++ replaceFrom old new 0 rest)
    (s : Str) :
    replaceFrom old new 0 (s.flatMap f) = s.flatMap g := by
  induction s with
  | nil => simp [replaceFrom]
  | cons c cs ih => rw [List.flatMap_cons, List.flatMap_cons, h, ih]

/-- The newline pass, piece by piece. -/
theorem break_piece (c : Nat) (rest : Str) :
    replaceFrom (utf8 "\n") (utf8 "<br>") 0 (escapeByte c ++ rest)
      = breakByte c ++ replaceFrom (utf8 "\n") (utf8 "<br>") 0 rest := by
  have e1 : utf8 "\n" = [10] := by decide
  have e2 : utf8 "<br>" = [60, 98, 114, 62] := by decide
  have e3 : utf8 "&amp;" = [38, 97, 109, 112, 59] := by decide
  have e4 : utf8 "&#39;" = [38, 35, 51, 57, 59] := by decide
  have e5 : utf8 "&lt;" = [38, 108, 116, 59] := by decide
  have e6 : utf8 "&gt;" = [38, 103, 116, 59] := by decide
  have e7 : utf8 "&#34;" = [38, 35, 51, 52, 59] := by decide
  have b1 : byte '&' = 38 := by decide
  have b2 : byte '\'' = 39 := by decide
  have b3 : byte '<' = 60 := by decide
  have b4 : byte '>' = 62 := by decide
  have b5 : byte '"' = 34 := by decide
  have b6 : byte '\n' = 10 := by decide
  simp only [escapeByte, breakByte, e1, e2, e3, e4, e5, e6, e7, b1, b2, b3, b4, b5, b6]
  by_cases h1 : c = 38
  · subst h1; simp [replaceFrom, List.isPrefixOf]
  by_cases h2 : c = 39
  · subst h2; simp [replaceFrom, List.isPrefixOf]
  by_cases h3 : c = 60
  · subst h3; simp [replaceFrom, List.isPrefixOf]
  by_cases h4 : c = 62
  · subst h4; simp [replaceFrom, List.isPrefixOf]
  by_cases h5 : c = 34
  · subst h5; simp [replaceFrom, List.isPrefixOf]
  by_cases h6 : c = 10
  · subst h6; simp [replaceFrom, List.isPrefixOf]
  · have h6b : ¬ (10 = c) := fun h => h6 h.symm
    simp [replaceFrom, List.isPrefixOf, h1, h2, h3, h4, h5, h6, h6b]

/-- The first pass of `addFormatting`, piece by piece: only the escape of `<`
contains `&lt;`. -/
theorem open_piece (c : Nat) (rest : Str) :
    replaceFrom (utf8 "&lt;") (utf8 "<kbd>&lt;") 0 (breakByte c ++ rest)
      = openByte c ++ replaceFrom (utf8 "&lt;") (utf8 "<kbd>&lt;") 0 rest := by
  have e2 : utf8 "<br>" = [60, 98, 114, 62] := by decide
  have e3 : utf8 "&amp;" = [38, 97, 109, 112, 59] := by decide
  have e4 : utf8 "&#39;" = [38, 35, 51, 57, 59] := by decide
  have e5 : utf8 "&lt;" = [38, 108, 116, 59] := by decide
  have e6 : utf8 "&gt;" = [38, 103, 116, 59] := by decide
  have e7 : utf8 "&#34;" = [38, 35, 51, 52, 59] := by decide
  have e8 : utf8 "<kbd>&lt;" = [60, 107, 98, 100, 62, 38, 108, 116, 59] := by decide
  have b1 : byte '&' = 38 := by decide
  have b2 : byte '\'' = 39 := by decide
  have b3 : byte '<' = 60 := by decide
  have b4 : byte '>' = 62 := by decide
  have b5 : byte '"' = 34 := by decide
  have b6 : byte '\n' = 10 := by decide
  simp only [escapeByte, breakByte, openByte, e2, e3, e4, e5, e6, e7, e8,
    b1, b2, b3, b4, b5, b6]
  by_cases h1 : c = 38
  · subst h1; simp [replaceFrom, List.isPrefixOf]
  by_cases h2 : c = 39
  · subst h2; simp [replaceFrom, List.isPrefixOf]
  by_cases h3 : c = 60
  · subst h3; simp [replaceFrom, List.isPrefixOf]
  by_cases h4 : c = 62
  · subst h4; simp [replaceFrom, List.isPrefixOf]
  by_cases h5 : c = 34
  · subst h5; simp [replaceFrom, List.isPrefixOf]
  by_cases h6 : c = 10
  · subst h6; simp [replaceFrom, List.isPrefixOf]
  · have h1b : ¬ (38 = c) := fun h => h1 h.symm
    simp [replaceFrom, List.isPrefixOf, h1, h2, h3, h4, h5, h6, h1b]

/-- The second pass of `addFormatting`, piece by piece: only the escape of `>`
contains `&gt;`. -/
theorem close_piece (c : Nat) (rest : Str) :
    replaceFrom (utf8 "&gt;") (utf8 "&gt;</kbd>") 0 (openByte c ++ rest)
      = formatByte c ++ replaceFrom (utf8 "&gt;") (utf8 "&gt;</kbd>") 0 rest := by
  have e2 : utf8 "<br>" = [60, 98, 114, 62] := by decide
  have e3 : utf8 "&amp;" = [38, 97, 109, 112, 59] := by decide
  have e4 : utf8 "&#39;" = [38, 35, 51, 57, 59] := by decide
  have e5 : utf8 "&lt;" = [38, 108, 116, 59] := by decide
  have e6 : utf8 "&gt;" = [38, 103, 116, 59] := by decide
  have e7 : utf8 "&#34;" = [38, 35, 51, 52, 59] := by decide
  have e8 : utf8 "<kbd>&lt;" = [60, 107, 98, 100, 62, 38, 108, 116, 59] := by decide
  have e9 : utf8 "&gt;</kbd>" = [38, 103, 116, 59, 60, 47, 107, 98, 100, 62] := by decide
  have b1 : byte '&' = 38 := by decide
  have b2 : byte '\'' = 39 := by decide
  have b3 : byte '<' = 60 := by decide
  have b4 : byte '>' = 62 := by decide
  have b5 : byte '"' = 34 := by decide
  have b6 : byte '\n' = 10 := by decide
  simp only [escapeByte, breakByte, openByte, formatByte, e2, e3, e4, e5, e6, e7, e8, e9,
    b1, b2, b3, b4, b5, b6]
  by_cases h1 : c = 38
  · subst h1; simp [replaceFrom, List.isPrefixOf]
  by_cases h2 : c = 39
  · subst h2; simp [replaceFrom, List.isPrefixOf]
  by_cases h3 : c = 60
  · subst h3; simp [replaceFrom, List.isPrefixOf]
  by_cases h4 : c = 62
  · subst h4; simp [replaceFrom, List.isPrefixOf]
  by_cases h5 : c = 34
  · subst h5; simp [replaceFrom, List.isPrefixOf]
  by_cases h6 : c = 10
  · subst h6; simp [replaceFrom, List.isPrefixOf]
  · have h1b : ¬ (38 = c) := fun h => h1 h.symm
    simp [replaceFrom, List.isPrefixOf, h1, h2, h3, h4, h5, h6, h1b]

/-- The three passes applied to an escaped text give the output table applied
byte by byte. -/
theorem format_passes (content : Str) :
    addFormatting (ReplaceAll (EscapeString content) (utf8 "\n") (utf8 "<br>"))
      = content.flatMap formatByte := by
  simp only [addFormatting, ReplaceAll, EscapeString]
  rw [replaceFrom_pieces _ _ escapeByte breakByte break_piece,
    replaceFrom_pieces _ _ breakByte openByte open_piece,
    replaceFrom_pieces _ _ openByte formatByte close_piece]

/-- Every byte of the encoding of a non-ASCII character is above `0x7F`. -/
theorem utf8EncodeChar_high (n : Nat) (h : 0x7f < n) : ∀ b ∈ utf8EncodeChar n, 0x7f < b := by
  intro b hb
  simp only [utf8EncodeChar] at hb
  split_ifs at hb <;> simp at hb <;> omega

/-- The byte table leaves the bytes above `0x7F` alone. -/
theorem formatByte_high (l : Str) (h : ∀ b ∈ l, 0x7f < b) : l.flatMap formatByte = l := by
  induction l with
  | nil => rfl
  | cons b bs ih =>
    have hb : 0x7f < b := h b (List.mem_cons_self _ _)
    have b1 : byte '&' = 38 := by decide
    have b2 : byte '\'' = 39 := by decide
    have b3 : byte '<' = 60 := by decide
    have b4 : byte '>' = 62 := by decide
    have b5 : byte '"' = 34 := by decide
    have b6 : byte '\n' = 10 := by decide
    have hf : formatByte b = [b] := by
      simp only [formatByte, b1, b2, b3, b4, b5, b6]
      split_ifs <;> first | omega | rfl
    rw [List.flatMap_cons, hf, ih (fun x hx => h x (List.mem_cons_of_mem _ hx))]
    rfl

/-- The byte table applied to the encoding of a character is the character table. -/
theorem formatByte_char (c : Char) :
    (utf8EncodeChar c.toNat).flatMap formatByte = formatChar c := by
  by_cases hc : c.toNat ≤ 0x7f
  · have henc : utf8EncodeChar c.toNat = [c.toNat] := by simp [utf8EncodeChar, hc]
    have hinj : ∀ d : Char, c = d ↔ c.toNat = d.toNat := by
      intro d
      constructor
      · intro h; rw [h]
      · intro h; exact Char.ext (UInt32.ext (by simpa [Char.toNat] using h))
    rw [henc]
    simp only [List.flatMap_cons, List.flatMap_nil, List.append_nil, formatByte, formatChar,
      byte, hinj, henc]
  · have hhi : 0x7f < c.toNat := by omega
    rw [formatByte_high _ (utf8EncodeChar_high _ hhi)]
    have hne : ∀ d : Char, d.toNat ≤ 0x7f → c ≠ d := by
      intro d hd h; rw [h] at hhi; omega
    simp only [formatChar, hne '<' (by decide), hne '>' (by decide), hne '&' (by decide),
      hne '\'' (by decide), hne '"' (by decide), hne '\n' (by decide), if_false]

/-- The byte table applied to UTF-8 text is the character table applied to its
characters. -/
theorem formatByte_utf8Chars (cs : List Char) :
    (utf8Chars cs).flatMap formatByte = cs.flatMap formatChar := by
  simp only [utf8Chars]
  induction cs with
  | nil => rfl
  | cons c rest ih =>
    rw [List.flatMap_cons, List.flatMap_append, formatByte_char, ih, List.flatMap_cons]

/-- C7. For a non-empty content of the text file, `handleTextFile` returns, with
no error, the concatenation over the input of `<kbd>&lt;` for `<`,
`&gt;</kbd>` for `>`, `&amp;` for `&`, `&#39;` for the single quote, `&#34;`
for the double quote, `<br>` for a newline and the input itself elsewhere; the
same holds character by character when the content is UTF-8 text. -/
theorem handleTextFile_spec (fs : FileSystem) (path content : Str)
    (hr : fs.ReadFile path = .ok content) (hne : content ≠ []) :
    handleTextFile fs path = (content.flatMap formatByte, none)
    ∧ ∀ cs : List Char, content = utf8Chars cs →
        handleTextFile fs path = (cs.flatMap formatChar, none) := by
  have main : handleTextFile fs path = (content.flatMap formatByte, none) := by
    simp only [handleTextFile, hr, if_neg hne, format_passes]
  refine ⟨main, ?_⟩
  intro cs hcs
  rw [main, hcs, formatByte_utf8Chars]

/-- C7 at the description `a<b>c` of the sample folder `alpha_two`. -/
theorem handleTextFile_spec_witness :
    handleTextFile sampleFS (utf8 "/static/resources/alpha_two/root-spl.txt")
      = (utf8 "a<kbd>&lt;b&gt;</kbd>c", none) :=
  (handleTextFile_spec sampleFS (utf8 "/static/resources/alpha_two/root-spl.txt")
    (utf8 "a<b>c") rfl (by decide)).1

/-! ## Titles -/

/-- C5, the code at `alpha_two`: `strings.Title` does not treat the underscore
as a word separator, so only the first word is capitalised and `makeTitle`
returns `Alpha two`, not `Alpha Two`. -/
theorem makeTitle_alpha_two :
    makeTitle (utf8 "alpha_two") = utf8 "Alpha two"
    ∧ makeTitle (utf8 "alpha_two") ≠ utf8 "Alpha Two" := by
  decide

/-! ## Preview text -/

set_option maxRecDepth 100000 in
/-- C6, as stated, fails on multi-byte text: 141 copies of `é` are 141
characters, at most 280, yet `shortenText` cuts the text. -/
theorem shortenText_chars_counterexample :
    (List.replicate 141 'é').length ≤ 280
    ∧ shortenText (utf8Chars (List.replicate 141 'é')) ≠ utf8Chars (List.replicate 141 'é') := by
  decide

/-- The encoding of ASCII text has one byte per character. -/
theorem utf8Chars_ascii (cs : List Char) (h : ∀ c ∈ cs, c.toNat ≤ 0x7f) :
    utf8Chars cs = cs.map Char.toNat := by
  induction cs with
  | nil => rfl
  | cons c rest ih =>
    have hc : c.toNat ≤ 0x7f := h c (List.mem_cons_self _ _)
    have hrest := ih (fun x hx => h x (List.mem_cons_of_mem _ hx))
    simp only [utf8Chars] at hrest ⊢
    rw [List.flatMap_cons, hrest]
    simp [utf8EncodeChar, hc]

/-- C6, amended. `shortenText` measures in bytes: a text of at most 280 bytes is
returned unchanged, a longer one is cut to its first 280 bytes followed by
`...`, 283 bytes in all; for text of single-byte (ASCII) characters this is the
claim in characters. -/
theorem shortenText_spec (text : Str) :
    (text.length ≤ 280 → shortenText text = text)
    ∧ (text.length > 280 →
        shortenText text = text.take 280 ++ utf8 "..." ∧ (shortenText text).length = 283)
    ∧ (∀ cs : List Char, text = utf8Chars cs → (∀ c ∈ cs, c.toNat ≤ 0x7f) →
        (cs.length ≤ 280 → shortenText text = text)
        ∧ (cs.length > 280 → shortenText text = utf8Chars (cs.take 280) ++ utf8 "...")) := by
  have e : utf8 "..." = [46, 46, 46] := by decide
  have hshort : text.length ≤ 280 → shortenText text = text := by
    intro h
    simp only [shortenText, if_neg (Nat.not_lt.mpr h)]
  have hlong : text.length > 280 → shortenText text = text.take 280 ++ utf8 "..." := by
    intro h
    simp only [shortenText, if_pos h]
  refine ⟨hshort, fun h => ⟨hlong h, ?_⟩, ?_⟩
  · rw [hlong h, e, List.length_append, List.length_take]
    simp only [List.length_cons, List.length_nil]
    omega
  · intro cs hcs hascii
    have hlen : text.length = cs.length := by
      rw [hcs, utf8Chars_ascii cs hascii, List.length_map]
    refine ⟨fun h => hshort (by omega), fun h => ?_⟩
    rw [hlong (by omega), hcs, utf8Chars_ascii cs hascii,
      utf8Chars_ascii (cs.take 280) (fun c hc => hascii c (List.mem_of_mem_take hc)),
      List.map_take]

/-- C6 amended, at a 3-byte text and at a text of 300 letters `a`. -/
theorem shortenText_spec_witness :
    shortenText (utf8 "abc") = utf8 "abc"
    ∧ (shortenText (List.replicate 300 97)
          = (List.replicate 300 97).take 280 ++ utf8 "..."
        ∧ (shortenText (List.replicate 300 97)).length = 283)
    ∧ shortenText (utf8Chars (List.replicate 300 'a'))
        = utf8Chars ((List.replicate 300 'a').take 280) ++ utf8 "..." :=
  ⟨(shortenText_spec (utf8 "abc")).1 (by decide),
   (shortenText_spec (List.replicate 300 97)).2.1 (by rw [List.length_replicate]; omega),
   ((shortenText_spec (utf8Chars (List.replicate 300 'a'))).2.2 (List.replicate 300 'a') rfl
      (by intro c hc; rw [List.eq_of_mem_replicate hc]; decide)).2
      (by rw [List.length_replicate]; omega)⟩

/-! ## Share link -/

/-- After `url.QueryEscape` no space is left, so replacing spaces changes nothing. -/
theorem QueryEscape_no_space (s : Str) : 32 ∉ QueryEscape s := by
  have b1 : byte ' ' = 32 := by decide
  have b2 : byte '+' = 43 := by decide
  have b3 : byte '%' = 37 := by decide
  have b4 : byte '0' = 48 := by decide
  have b5 : byte 'A' = 65 := by decide
  simp only [QueryEscape, List.mem_flatMap, not_exists, not_and, b1, b2, b3]
  intro c _
  split_ifs with h1 h2
  · simp
  · simp only [upperhex, b4, b5]
    simp only [List.mem_cons, List.mem_singleton, List.not_mem_nil, or_false, not_or]
    refine ⟨by omega, ?_, ?_⟩ <;> split_ifs <;> omega
  · simp
    exact fun h => h1 h.symm

/-- Replacing a one-byte pattern that does not occur changes nothing. -/
theorem replaceFrom_absent (b : Nat) (new s : Str) (h : b ∉ s) :
    replaceFrom [b] new 0 s = s := by
  induction s with
  | nil => rfl
  | cons c cs ih =>
    have hc : ¬ (b = c) := fun e => h (by rw [e]; exact List.mem_cons_self _ _)
    have hcs : b ∉ cs := fun e => h (List.mem_cons_of_mem _ e)
    simp [replaceFrom, List.isPrefixOf, hc, ih hcs]

/-- The share link is the query escape of the message: its spaces are `+` signs. -/
theorem tweetString_eq (name folderName : Str) :
    tweetString name folderName = QueryEscape (tweetMessage name folderName) := by
  have e : utf8 " " = [32] := by decide
  simp only [tweetString, ReplaceAll, e]
  exact replaceFrom_absent 32 _ _ (QueryEscape_no_space _)

/-- The share link of every game starts with `Remember+`: the space after the
first word of the message is a `+` sign. -/
theorem tweetString_starts (name folderName : Str) :
    utf8 "Remember+" <+: tweetString name folderName := by
  have e : QueryEscape (utf8 "Remember ") = utf8 "Remember+" := by decide
  rw [tweetString_eq]
  simp only [tweetMessage, QueryEscape, List.flatMap_append, List.append_assoc] at e ⊢
  rw [e]
  exact List.prefix_append _ _

set_option maxRecDepth 100000 in
/-- C8, the code at the game `Alpha two` of folder `alpha_two`: every space of the
message is a `+` sign in the share link, and `%20` occurs nowhere. -/
theorem tweetString_alpha_two :
    tweetString (utf8 "Alpha two") (utf8 "alpha_two")
      = utf8 "Remember+Alpha+two%3F+-+It%27s+a+game+released+for+the+Cybiko+Classic%2C+a+handheld+from+the+early+2000%21+https%3A%2F%2Fcybiko.kn100.me%2Fgame%2Falpha_two+%23cybiko+%23retrogaming" := by
  decide

/-! ## Pagination list -/

/-- A loop appending one computed entry per counter value computes a map. -/
theorem foldl_append_map {α β : Type} (f : α → β) (l : List α) (acc : List β) :
    l.foldl (fun pages k => Slice.append pages (f k)) (some acc) = some (acc ++ l.map f) := by
  induction l generalizing acc with
  | nil => simp
  | cons x xs ih =>
    have h := ih (acc ++ [f x])
    simp only [List.foldl_cons, Slice.append, Option.getD_some] at h ⊢
    rw [h]
    simp

/-- The pagination list holds the entries of the pages `1, ..., Length/limit + 1`
in that order. -/
theorem buildPages_eq (cyData : CyData) (limit pageInt : Int) :
    buildPages cyData limit pageInt
      = some ((List.range (cyData.Length / limit + 1).toNat).map
          (fun k : Nat => pageEntry cyData limit pageInt ((k : Int) + 1))) := by
  simp only [buildPages]
  rw [foldl_append_map (fun k : Nat => pageEntry cyData limit pageInt ((k : Int) + 1))]
  simp

/-- Fields of a pagination entry: `IsFirst` marks page 1, `IsLast` marks page
`Length/limit`, one less than the last page of the list. -/
theorem pageEntry_fields (cyData : CyData) (limit pageInt i : Int) :
    (pageEntry cyData limit pageInt i).Page = i
    ∧ ((pageEntry cyData limit pageInt i).IsFirst = true ↔ i = 1)
    ∧ ((pageEntry cyData limit pageInt i).IsLast = true ↔ i = cyData.Length / limit)
    ∧ ((pageEntry cyData limit pageInt i).IsActive = true ↔ i = pageInt) := by
  simp only [pageEntry]
  refine ⟨?_, ?_, ?_, ?_⟩ <;> split_ifs <;> simp_all

set_option maxRecDepth 100000 in
/-- C9, the code at the two-game catalogue and at a catalogue of 40 games: with
two games the list is the single entry of page 1 and its `IsLast` is false;
with 40 games `IsLast` is set on page 1 and not on the final entry, page 2. -/
theorem pagination_IsLast_eval :
    GetTemplatedArchiveSiteHandler sampleCatalog (utf8 "1")
      = Response.rendered
          { Games := some sampleCatalog.Games
            Pages := some [{ Page := 1, IsActive := true, IsFirst := true, IsLast := false }] }
    ∧ buildPages (positionalCatalog 40) PageLimit 2
      = some [{ Page := 1, IsActive := false, IsFirst := true, IsLast := true },
              { Page := 2, IsActive := true, IsFirst := false, IsLast := false }] := by
  decide

end cydata
